import Mathlib

/-!
Verification of the astromap constellation segmentation engine
(`astromap/segment.py`): the pairwise angular-distance / brightness
matrix builder (`SkySegmenter._gen_edges`) and the greedy
group-formation loop (`SkySegmenter.segment`).

The matrix builder is modelled over the reals.  The greedy loop is
modelled generically over any linearly ordered score type `α` (the code
runs it on floats); its state is the quadruple of mutable attributes
`_groups`, `_members`, the set of edges whose `now_bright` has been
cleared (`processed`), and the local set `lonely_stars`.
-/

namespace AstroMap

/-! ### Star data: the fields of `BrightStar` consumed by the segmenter -/

structure SStar where
  number : ℕ
  magnitude : ℝ
  azimuth : ℝ
  zenith : ℝ

instance : Inhabited SStar := ⟨⟨0, 0, 0, 0⟩⟩

/-! ### Matrix builder (`SkySegmenter._gen_edges`), pointwise

`_gen_edges` builds, for star indices `u, v`, the arrays
`pairwise_magnitudes`, `distances` and `brights`; each entry is a pure
function of the two stars, modelled here as binary functions.
The hardcoded weights from `SkySegmenter.__init__`: -/

/-- `self._magnitude_power = np.float64(2.0)` -/
def magnitudePower : ℝ := 2

/-- `self._distance_power = np.float64(2.0)` -/
def distancePower : ℝ := 2

/-- `self._distance_coefficient = np.float64(16.0)` -/
def distanceCoefficient : ℝ := 16

/-- Entry `(u, v)` of `pairwise_zn_sin + pairwise_zn_cos * pairwise_az_diff_cos`
with `a` the star at index `u` and `b` the star at index `v`
(`cos` is even, so the orientation of the azimuth difference is immaterial). -/
noncomputable def dotArg (a b : SStar) : ℝ :=
  Real.sin a.zenith * Real.sin b.zenith +
    Real.cos a.zenith * Real.cos b.zenith * Real.cos (b.azimuth - a.azimuth)

/-- `np.minimum(1.0, x)`: the transformation applied to the spherical
law-of-cosines expression before `np.arccos` in `_gen_edges`. -/
noncomputable def upperClamp (x : ℝ) : ℝ := min 1 x

/-- Modelled from the spec: `clamp(x, −1, 1)`, clamping at both bounds, as in
the spec formula `arccos( clamp(…, −1, 1) )`.  Kept for comparison with the
source-derived `upperClamp`. -/
noncomputable def specClamp (x : ℝ) : ℝ := max (-1) (min 1 x)

/-- Entry `(u, v)` of the `distances` array:
`np.arccos(np.minimum(1.0, pairwise_zn_sin + pairwise_zn_cos * pairwise_az_diff_cos))`. -/
noncomputable def distances (a b : SStar) : ℝ := Real.arccos (upperClamp (dotArg a b))

/-- Entry of the `magnitudes` array: `star.magnitude + 1.5`. -/
def magShifted (s : SStar) : ℝ := s.magnitude + 1.5

/-- Entry `(u, v)` of `pairwise_magnitudes = mags + mags.T`. -/
def pairMagnitude (a b : SStar) : ℝ := magShifted a + magShifted b

/-- Entry `(u, v)` of the `brights` array:
`np.power(pairwise_magnitudes, magnitude_power) + np.power(distances, distance_power) * distance_coefficient`.
The numpy exponents are the float64 values `2.0`; real `rpow` agrees with
numpy on integral exponents, including negative bases. -/
noncomputable def brights (a b : SStar) : ℝ :=
  pairMagnitude a b ^ magnitudePower + distances a b ^ distancePower * distanceCoefficient

/-- Modelled from the spec: the claimed formula
`brightness(u, v) = (mag_u + offset + mag_v + offset) ^ magnitude_power + (D[u][v] ^ distance_power) · distance_coefficient`
with the default constants `offset = 1.5`, powers `2.0`, coefficient `16.0`. -/
noncomputable def specBrightness (a b : SStar) : ℝ :=
  (a.magnitude + 1.5 + b.magnitude + 1.5) ^ (2 : ℝ) +
    distances a b ^ (2 : ℝ) * 16

/-! ### The greedy segmentation loop (`SkySegmenter.segment`)

One Python exception kind per abnormal exit, plus fuel exhaustion for the
fuel-indexed model of the unbounded `while` loop. -/

inductive SegErr where
  /-- `AttributeError`: the selected array cell holds `None` (diagonal or
  lower triangle), and `edge.now_bright = None` dereferences it. -/
  | attrError
  /-- `IndexError`: `self._groups[group_index]` out of range. -/
  | indexError
  /-- the fuel bound was exhausted with the loop still running. -/
  | fuelOut
deriving DecidableEq

/-- The mutable state of one `segment` run: `self._groups` (each group a set
of `(u, v)` edge indices), `self._members` (star index ↦ group index),
the set of cells whose `now_bright` has been set to `None`, and the local
`lonely_stars` set. -/
structure SegState (α : Type) where
  groups : List (Finset (ℕ × ℕ))
  members : ℕ → Option ℕ
  processed : Finset (ℕ × ℕ)
  lonely : Finset ℕ

/-- The `count × count` array cells in row-major (C) order, as flattened by
`np.argmin` / `np.unravel_index`. -/
def cells (n : ℕ) : List (ℕ × ℕ) :=
  (List.range n).flatMap fun u => (List.range n).map fun v => (u, v)

/-- Content of an array cell as seen by the `np.argmin` scan:
`none` = the cell holds Python `None` (diagonal / lower triangle),
`some none` = a `BrightEdge` whose `now_bright` is `None` (processed),
`some (some r)` = a live `BrightEdge` with `now_bright = r`. -/
def cellVal [LinearOrder α] (bright : ℕ → ℕ → α) (processed : Finset (ℕ × ℕ))
    (c : ℕ × ℕ) : Option (Option α) :=
  if c.1 < c.2 then
    (if c ∈ processed then some none else some (some (bright c.1 c.2)))
  else none

/-- The strict comparison used by `np.argmin` on the object array, from
`BrightEdge.__lt__` / `__gt__` and Python `None` semantics: a live edge is
below every processed edge and every `None` cell, a processed edge is below
every `None` cell, two processed edges are incomparable, `None` is below
nothing. -/
def entryLT [LinearOrder α] : Option (Option α) → Option (Option α) → Bool
  | some (some r), some (some s) => decide (r < s)
  | some (some _), some none => true
  | some (some _), none => true
  | some none, none => true
  | _, _ => false

/-- `np.argmin`: scan keeping the current minimum, replacing it only on a
strictly smaller element, so the first occurrence of the minimum wins. -/
def argminFold (lt : β → β → Bool) (b : β) (l : List β) : β :=
  l.foldl (fun best c => if lt c best then c else best) b

/-- `np.unravel_index(np.argmin(edges), edges.shape)`: the row-major-first
minimal cell of the edge array. -/
def select [LinearOrder α] (n : ℕ) (bright : ℕ → ℕ → α)
    (processed : Finset (ℕ × ℕ)) : ℕ × ℕ :=
  match cells n with
  | [] => (0, 0)
  | c :: cs =>
    argminFold
      (fun x y => entryLT (cellVal bright processed x) (cellVal bright processed y)) c cs

/-- The body of one `while lonely_stars` iteration of `SkySegmenter.segment`,
given the selected cell `c = brightest`: if the cell holds no edge the
attribute write `edge.now_bright = None` raises; otherwise scan the two
endpoints for membership (`group_index` ends at the second assigned
endpoint, `separate_groups` is set when both endpoints are assigned to
different groups), clear the edge, and unless the groups are separate add
the edge to the (possibly new) group via `self._groups[group_index]`,
assign both endpoints to it and remove them from `lonely_stars`. -/
def segStepAt (st : SegState α) (c : ℕ × ℕ) : Except SegErr (SegState α) :=
  if c.1 < c.2 then
    let gu := st.members c.1
    let gv := st.members c.2
    let sep : Bool :=
      match gu, gv with
      | some g1, some g2 => decide (g1 ≠ g2)
      | _, _ => false
    let gi : Option ℕ := match gv with | some g => some g | none => gu
    let processed1 := insert c st.processed
    if sep = true then
      .ok ⟨st.groups, st.members, processed1, st.lonely⟩
    else
      match gi with
      | none =>
        .ok ⟨st.groups ++ [{c}],
          fun i => if i = c.1 ∨ i = c.2 then some st.groups.length else st.members i,
          processed1,
          (st.lonely.erase c.1).erase c.2⟩
      | some g =>
        if hg : g < st.groups.length then
          .ok ⟨st.groups.set g (insert c (st.groups.get ⟨g, hg⟩)),
            fun i => if i = c.1 ∨ i = c.2 then some g else st.members i,
            processed1,
            (st.lonely.erase c.1).erase c.2⟩
        else .error .indexError
  else .error .attrError

/-- One iteration of the `while lonely_stars` body: select the row-major
first minimal cell of the edge array, then run the decision body on it. -/
def segStep [LinearOrder α] (n : ℕ) (bright : ℕ → ℕ → α) (st : SegState α) :
    Except SegErr (SegState α) :=
  segStepAt st (select n bright st.processed)

/-- The `while len(lonely_stars) > 0` loop, indexed by remaining fuel (the
loop itself is unbounded in the source; enough fuel makes `fuelOut`
unreachable). -/
def segRun [LinearOrder α] (n : ℕ) (bright : ℕ → ℕ → α) :
    ℕ → SegState α → Except SegErr (SegState α)
  | 0, st => if st.lonely = ∅ then .ok st else .error .fuelOut
  | f + 1, st =>
    if st.lonely = ∅ then .ok st
    else
      match segStep n bright st with
      | .error e => .error e
      | .ok st1 => segRun n bright f st1

/-- Exactly `k` iterations of the loop (stopping early once
`lonely_stars` is empty): the intermediate states of one run. -/
def segIter [LinearOrder α] (n : ℕ) (bright : ℕ → ℕ → α) :
    ℕ → SegState α → Except SegErr (SegState α)
  | 0, st => .ok st
  | k + 1, st =>
    if st.lonely = ∅ then .ok st
    else
      match segStep n bright st with
      | .error e => .error e
      | .ok st1 => segIter n bright k st1

/-- The state set up by `segment` before the loop: no groups, empty
membership, no processed edge, `lonely_stars = set(range(count))`. -/
def segInit (α : Type) (n : ℕ) : SegState α :=
  ⟨[], fun _ => none, ∅, Finset.range n⟩

/-- The star positions covered by a group: endpoints of its edges. -/
def starsOf (g : Finset (ℕ × ℕ))  : Finset ℕ :=
  g.image Prod.fst ∪ g.image Prod.snd

/-- The strict upper triangle of the `n × n` array: the cells that hold a
`BrightEdge` object. -/
def uTri (n : ℕ) : Finset (ℕ × ℕ) :=
  (Finset.range n ×ˢ Finset.range n).filter fun c => c.1 < c.2

/-- Number of still-live edges (edge cells not yet processed). -/
def liveCount (n : ℕ) (st : SegState α) : ℕ :=
  ((uTri n).filter fun c => c ∉ st.processed).card

/-- The run invariant of `SkySegmenter.segment`: membership indices point at
existing groups and in-range stars, edges of each group have both endpoints
assigned to that group, `lonely_stars` is exactly the set of unassigned
in-range stars, processed cells are edge cells whose endpoints are assigned. -/
structure SegInv (n : ℕ) (st : SegState α) : Prop where
  memLT : ∀ i g, st.members i = some g → g < st.groups.length
  memDom : ∀ i g, st.members i = some g → i < n
  edgeMem : ∀ gi (h : gi < st.groups.length) p, p ∈ st.groups.get ⟨gi, h⟩ →
    st.members p.1 = some gi ∧ st.members p.2 = some gi
  lonelyIff : ∀ i, i ∈ st.lonely ↔ i < n ∧ st.members i = none
  procMem : ∀ p, p ∈ st.processed →
    (st.members p.1).isSome = true ∧ (st.members p.2).isSome = true
  procCell : ∀ p, p ∈ st.processed → p.1 < p.2 ∧ p.2 < n

/-! ### The full pipeline (`SkySegmenter.segment` over the reals) -/

/-- The filter-and-sort prologue of `_gen_edges`:
`sorted([star for star in catalog if star.magnitude <= max_magnitude], key=attrgetter("magnitude"))`
(Python `sorted` is a stable merge sort). -/
noncomputable def filteredSorted (catalog : List SStar) (maxMag : ℝ) : List SStar :=
  (catalog.filter fun s => decide (s.magnitude ≤ maxMag)).mergeSort
    fun a b => decide (a.magnitude ≤ b.magnitude)

/-- `numbers: list[int] = [star.number for star in stars]` as returned by
`_gen_edges` (no validation is applied on the way). -/
noncomputable def genNumbers (catalog : List SStar) (maxMag : ℝ) : List ℕ :=
  (filteredSorted catalog maxMag).map fun s => s.number

/-- The brightness score matrix of the filtered, sorted star list. -/
noncomputable def edgeBright (stars : List SStar) (u v : ℕ) : ℝ :=
  brights (stars.getD u default) (stars.getD v default)

/-- `SkySegmenter.segment(max_magnitude)` over the reals: build the edge
matrix from the filtered sorted stars, then run the greedy loop (with fuel
`count²`, ample for the at-most-one-decision-per-edge loop). -/
noncomputable def segment (catalog : List SStar) (maxMag : ℝ) :
    Except SegErr (SegState ℝ) :=
  segRun (filteredSorted catalog maxMag).length
    (edgeBright (filteredSorted catalog maxMag))
    ((filteredSorted catalog maxMag).length * (filteredSorted catalog maxMag).length)
    (segInit ℝ (filteredSorted catalog maxMag).length)

/-- Fixed score matrix used by concrete witnesses: edge (0,1) is globally
best, (2,3) second, (1,2) third (it would bridge the two groups). -/
def brW : ℕ → ℕ → ℕ := fun u v =>
  if u = 0 ∧ v = 1 then 1 else if u = 2 ∧ v = 3 then 2
    else if u = 1 ∧ v = 2 then 3 else 100

/-! ## Lemmas: the spherical law-of-cosines expression -/

lemma dotArg_comm (a b : SStar) : dotArg a b = dotArg b a := by
  unfold dotArg
  rw [show a.azimuth - b.azimuth = -(b.azimuth - a.azimuth) by ring, Real.cos_neg]
  ring

lemma dotArg_self (a : SStar) : dotArg a a = 1 := by
  unfold dotArg
  rw [sub_self, Real.cos_zero]
  linear_combination Real.sin_sq_add_cos_sq a.zenith

lemma neg_one_le_dotArg (a b : SStar) : (-1 : ℝ) ≤ dotArg a b := by
  have hs1 := Real.sin_sq_add_cos_sq a.zenith
  have hs2 := Real.sin_sq_add_cos_sq b.zenith
  have ht2 : -1 ≤ Real.cos (b.azimuth - a.azimuth) := Real.neg_one_le_cos _
  have ht1 : Real.cos (b.azimuth - a.azimuth) ≤ 1 := Real.cos_le_one _
  have h1 : 0 ≤ (1 + Real.cos (b.azimuth - a.azimuth)) *
      (Real.cos a.zenith + Real.cos b.zenith) ^ 2 :=
    mul_nonneg (by linarith) (sq_nonneg _)
  have h2 : 0 ≤ (1 - Real.cos (b.azimuth - a.azimuth)) *
      (Real.cos a.zenith - Real.cos b.zenith) ^ 2 :=
    mul_nonneg (by linarith) (sq_nonneg _)
  have h3 : 0 ≤ (Real.sin a.zenith + Real.sin b.zenith) ^ 2 := sq_nonneg _
  unfold dotArg
  nlinarith [h1, h2, h3, hs1, hs2]

lemma brights_eq_spec (a b : SStar) : brights a b = specBrightness a b := by
  unfold brights specBrightness pairMagnitude magShifted magnitudePower
    distancePower distanceCoefficient
  have hbase : a.magnitude + 1.5 + (b.magnitude + 1.5)
      = a.magnitude + 1.5 + b.magnitude + 1.5 := by ring
  rw [hbase]

end AstroMap

namespace AstroMap

/-! ## Lemmas: the argmin scan -/

lemma argminFold_cons {β : Type} (lt : β → β → Bool) (b c : β) (l : List β) :
    argminFold lt b (c :: l) = argminFold lt (if lt c b then c else b) l := rfl

lemma argminFold_spec {β : Type} (lt : β → β → Bool) (hirr : ∀ x, lt x x = false)
    (htrans : ∀ x y z, lt x y = true → lt y z = true → lt x z = true)
    (hq : ∀ x y z, lt x z = true → lt y z = false → lt x y = true)
    (l : List β) : ∀ b : β,
      (∀ x ∈ b :: l, lt x (argminFold lt b l) = false) ∧
      (argminFold lt b l = b ∨
        ∃ l1 l2, l = l1 ++ argminFold lt b l :: l2 ∧
          lt (argminFold lt b l) b = true ∧
          ∀ x ∈ l1, lt (argminFold lt b l) x = true) := by
  induction l with
  | nil =>
    intro b
    refine ⟨?_, Or.inl rfl⟩
    intro x hx
    rw [List.mem_singleton] at hx
    rw [hx]
    exact hirr _
  | cons c cs ih =>
    intro b
    rw [argminFold_cons]
    by_cases hcb : lt c b = true
    · rw [if_pos hcb]
      obtain ⟨ihmin, ihpos⟩ := ih c
      constructor
      · intro x hx
        rcases List.mem_cons.mp hx with hxb | hx2
        · subst hxb
          by_contra hbr
          rw [Bool.not_eq_false] at hbr
          have hcr := htrans c x _ hcb hbr
          rw [ihmin c (List.mem_cons_self c cs)] at hcr
          exact Bool.false_ne_true hcr
        · exact ihmin x hx2
      · right
        rcases ihpos with heq | ⟨l1, l2, hsplit, hlt, hall⟩
        · refine ⟨[], cs, ?_, ?_, ?_⟩
          · rw [heq]; rfl
          · rw [heq]; exact hcb
          · intro x hx; exact absurd hx (List.not_mem_nil x)
        · refine ⟨c :: l1, l2, ?_, ?_, ?_⟩
          · rw [List.cons_append, ← hsplit]
          · exact htrans _ c b hlt hcb
          · intro x hx
            rcases List.mem_cons.mp hx with hxc | hx2
            · rw [hxc]; exact hlt
            · exact hall x hx2
    · rw [if_neg hcb]
      rw [Bool.not_eq_true] at hcb
      obtain ⟨ihmin, ihpos⟩ := ih b
      constructor
      · intro x hx
        rcases List.mem_cons.mp hx with hxb | hx2
        · subst hxb; exact ihmin x (List.mem_cons_self x cs)
        · rcases List.mem_cons.mp hx2 with hxc | hx3
          · subst hxc
            by_contra hcr
            rw [Bool.not_eq_false] at hcr
            have := hq x b _ hcr (ihmin b (List.mem_cons_self b cs))
            rw [hcb] at this
            exact Bool.false_ne_true this
          · exact ihmin x (List.mem_cons_of_mem b hx3)
      · rcases ihpos with heq | ⟨l1, l2, hsplit, hlt, hall⟩
        · exact Or.inl heq
        · right
          refine ⟨c :: l1, l2, ?_, hlt, ?_⟩
          · rw [List.cons_append, ← hsplit]
          · intro x hx
            rcases List.mem_cons.mp hx with hxc | hx2
            · rw [hxc]
              exact hq _ c b hlt hcb
            · exact hall x hx2

lemma entryLT_irrefl [LinearOrder α] (x : Option (Option α)) : entryLT x x = false := by
  rcases x with _ | (_ | r) <;> simp [entryLT]

lemma entryLT_trans [LinearOrder α] (x y z : Option (Option α)) :
    entryLT x y = true → entryLT y z = true → entryLT x z = true := by
  rcases x with _ | (_ | r) <;> rcases y with _ | (_ | s) <;> rcases z with _ | (_ | t) <;>
    simp [entryLT] <;> (intro h1 h2; exact lt_trans h1 h2)

lemma entryLT_of_not_lt [LinearOrder α] (x y z : Option (Option α)) :
    entryLT x z = true → entryLT y z = false → entryLT x y = true := by
  rcases x with _ | (_ | r) <;> rcases y with _ | (_ | s) <;> rcases z with _ | (_ | t) <;>
    simp [entryLT] <;> (intro h1 h2; exact lt_of_lt_of_le h1 h2)

lemma cells_mem {n : ℕ} {c : ℕ × ℕ} : c ∈ cells n ↔ c.1 < n ∧ c.2 < n := by
  rcases c with ⟨u, v⟩
  simp [cells]

lemma cells_ne_nil {n : ℕ} (hn : 0 < n) : cells n ≠ [] := by
  have h0 : ((0, 0) : ℕ × ℕ) ∈ cells n := cells_mem.mpr ⟨hn, hn⟩
  exact List.ne_nil_of_mem h0

lemma cellVal_live [LinearOrder α] {bright : ℕ → ℕ → α} {processed : Finset (ℕ × ℕ)}
    {c : ℕ × ℕ} {r : α} (h : cellVal bright processed c = some (some r)) :
    c.1 < c.2 ∧ c ∉ processed := by
  unfold cellVal at h
  by_cases h1 : c.1 < c.2
  · rw [if_pos h1] at h
    by_cases h2 : c ∈ processed
    · rw [if_pos h2] at h; exact absurd h (by simp)
    · exact ⟨h1, h2⟩
  · rw [if_neg h1] at h; exact absurd h (by simp)

lemma cellVal_of_live [LinearOrder α] {bright : ℕ → ℕ → α} {processed : Finset (ℕ × ℕ)}
    {c : ℕ × ℕ} (h1 : c.1 < c.2) (h2 : c ∉ processed) :
    cellVal bright processed c = some (some (bright c.1 c.2)) := by
  unfold cellVal
  rw [if_pos h1, if_neg h2]

lemma select_spec [LinearOrder α] (n : ℕ) (bright : ℕ → ℕ → α)
    (processed : Finset (ℕ × ℕ)) (hn : 0 < n) :
    select n bright processed ∈ cells n ∧
    (∀ c ∈ cells n,
      entryLT (cellVal bright processed c)
        (cellVal bright processed (select n bright processed)) = false) ∧
    ∃ l1 l2, cells n = l1 ++ select n bright processed :: l2 ∧
      ∀ x ∈ l1,
        entryLT (cellVal bright processed (select n bright processed))
          (cellVal bright processed x) = true := by
  obtain ⟨c0, cs, hc⟩ := List.exists_cons_of_ne_nil (cells_ne_nil hn)
  set f : ℕ × ℕ → ℕ × ℕ → Bool :=
    fun x y => entryLT (cellVal bright processed x) (cellVal bright processed y) with hf
  have hsel : select n bright processed = argminFold f c0 cs := by
    rw [select, hc]
  have hspec := argminFold_spec f
    (fun x => entryLT_irrefl _)
    (fun x y z => entryLT_trans _ _ _)
    (fun x y z => entryLT_of_not_lt _ _ _)
    cs c0
  rw [← hsel] at hspec
  obtain ⟨hmin, hpos⟩ := hspec
  have hmem : select n bright processed ∈ cells n := by
    rcases hpos with heq | ⟨l1, l2, hsplit, -, -⟩
    · rw [heq, hc]; exact List.mem_cons_self c0 cs
    · rw [hc, hsplit]
      exact List.mem_cons_of_mem c0 (List.mem_append_right _ (List.mem_cons_self _ _))
  refine ⟨hmem, ?_, ?_⟩
  · intro c hcc
    rw [hc] at hcc
    exact hmin c hcc
  · rcases hpos with heq | ⟨l1, l2, hsplit, hltb, hall⟩
    · refine ⟨[], cs, ?_, ?_⟩
      · rw [hc, heq]; rfl
      · intro x hx; exact absurd hx (List.not_mem_nil x)
    · refine ⟨c0 :: l1, l2, ?_, ?_⟩
      · rw [hc, hsplit, List.cons_append]
      · intro x hx
        rcases List.mem_cons.mp hx with hx0 | hx1
        · rw [hx0]; exact hltb
        · exact hall x hx1

lemma select_live [LinearOrder α] {n : ℕ} {bright : ℕ → ℕ → α}
    {processed : Finset (ℕ × ℕ)} (c0 : ℕ × ℕ) (h0 : c0 ∈ cells n)
    (h1 : c0.1 < c0.2) (h2 : c0 ∉ processed) :
    (select n bright processed).1 < (select n bright processed).2 ∧
      select n bright processed ∉ processed ∧
      select n bright processed ∈ cells n := by
  have hn : 0 < n := lt_of_le_of_lt (Nat.zero_le _) (cells_mem.mp h0).2
  obtain ⟨hmem, hmin, -⟩ := select_spec n bright processed hn
  have hv0 : cellVal bright processed c0 = some (some (bright c0.1 c0.2)) :=
    cellVal_of_live h1 h2
  have hc0 := hmin c0 h0
  rw [hv0] at hc0
  rcases hv : cellVal bright processed (select n bright processed) with _ | (_ | r)
  · rw [hv] at hc0; exact absurd hc0 (by simp [entryLT])
  · rw [hv] at hc0; exact absurd hc0 (by simp [entryLT])
  · obtain ⟨ha, hb⟩ := cellVal_live hv
    exact ⟨ha, hb, hmem⟩

end AstroMap

namespace AstroMap

/-! ## Lemmas: one decision step, by endpoint membership -/

lemma segStepAt_attr (st : SegState α) (c : ℕ × ℕ) (h : ¬ c.1 < c.2) :
    segStepAt st c = .error .attrError := by
  unfold segStepAt
  rw [if_neg h]

lemma segStepAt_sep {st : SegState α} {u v g1 g2 : ℕ} (huv : u < v)
    (hu : st.members u = some g1) (hv : st.members v = some g2) (hne : g1 ≠ g2) :
    segStepAt st (u, v) =
      .ok ⟨st.groups, st.members, insert (u, v) st.processed, st.lonely⟩ := by
  unfold segStepAt
  simp [huv, hu, hv, hne]

lemma segStepAt_new {st : SegState α} {u v : ℕ} (huv : u < v)
    (hu : st.members u = none) (hv : st.members v = none) :
    segStepAt st (u, v) =
      .ok ⟨st.groups ++ [{(u, v)}],
        fun i => if i = u ∨ i = v then some st.groups.length else st.members i,
        insert (u, v) st.processed,
        (st.lonely.erase u).erase v⟩ := by
  unfold segStepAt
  simp [huv, hu, hv]

lemma segStepAt_join_u {st : SegState α} {u v g : ℕ} (huv : u < v)
    (hu : st.members u = some g) (hv : st.members v = none)
    (hg : g < st.groups.length) :
    segStepAt st (u, v) =
      .ok ⟨st.groups.set g (insert (u, v) (st.groups.get ⟨g, hg⟩)),
        fun i => if i = u ∨ i = v then some g else st.members i,
        insert (u, v) st.processed,
        (st.lonely.erase u).erase v⟩ := by
  unfold segStepAt
  simp [huv, hu, hv, hg]

lemma segStepAt_join_v {st : SegState α} {u v g : ℕ} (huv : u < v)
    (hu : st.members u = none ∨ st.members u = some g)
    (hv : st.members v = some g) (hg : g < st.groups.length) :
    segStepAt st (u, v) =
      .ok ⟨st.groups.set g (insert (u, v) (st.groups.get ⟨g, hg⟩)),
        fun i => if i = u ∨ i = v then some g else st.members i,
        insert (u, v) st.processed,
        (st.lonely.erase u).erase v⟩ := by
  unfold segStepAt
  rcases hu with hu | hu
  · simp [huv, hu, hv, hg]
  · simp [huv, hu, hv, hg]

end AstroMap

namespace AstroMap

/-! ## Lemmas: the run invariant is established and preserved -/

lemma segInv_init (n : ℕ) : SegInv n (segInit α n) := by
  constructor
  · intro i g hg; exact absurd hg (by simp [segInit])
  · intro i g hg; exact absurd hg (by simp [segInit])
  · intro gi h p hp; exact absurd h (by simp [segInit])
  · intro i; simp [segInit]
  · intro p hp; exact absurd hp (by simp [segInit])
  · intro p hp; exact absurd hp (by simp [segInit])

lemma segInv_sep {n : ℕ} {st : SegState α} {u v g1 g2 : ℕ} (hinv : SegInv n st)
    (huv : u < v) (hvn : v < n)
    (hu : st.members u = some g1) (hv : st.members v = some g2) :
    SegInv n (⟨st.groups, st.members, insert (u, v) st.processed, st.lonely⟩ :
      SegState α) := by
  obtain ⟨memLT, memDom, edgeMem, lonelyIff, procMem, procCell⟩ := hinv
  refine ⟨memLT, memDom, edgeMem, lonelyIff, ?_, ?_⟩
  · intro p hp
    rcases Finset.mem_insert.mp hp with hpc | hpo
    · subst hpc
      exact ⟨by simp [hu], by simp [hv]⟩
    · exact procMem p hpo
  · intro p hp
    rcases Finset.mem_insert.mp hp with hpc | hpo
    · subst hpc; exact ⟨huv, hvn⟩
    · exact procCell p hpo

lemma segInv_new {n : ℕ} {st : SegState α} {u v : ℕ} (hinv : SegInv n st)
    (huv : u < v) (hun : u < n) (hvn : v < n)
    (hu : st.members u = none) (hv : st.members v = none) :
    SegInv n (⟨st.groups ++ [{(u, v)}],
      fun i => if i = u ∨ i = v then some st.groups.length else st.members i,
      insert (u, v) st.processed,
      (st.lonely.erase u).erase v⟩ : SegState α) := by
  obtain ⟨memLT, memDom, edgeMem, lonelyIff, procMem, procCell⟩ := hinv
  constructor
  · intro i g hg
    simp only at hg
    rw [List.length_append]
    by_cases hi : i = u ∨ i = v
    · rw [if_pos hi] at hg
      have hgl : st.groups.length = g := Option.some.inj hg
      simp only [List.length_singleton]
      omega
    · rw [if_neg hi] at hg
      have := memLT i g hg
      simp only [List.length_singleton]
      omega
  · intro i g hg
    simp only at hg
    by_cases hi : i = u ∨ i = v
    · rcases hi with hi | hi
      · rw [hi]; exact hun
      · rw [hi]; exact hvn
    · rw [if_neg hi] at hg
      exact memDom i g hg
  · intro gi h p hp
    rw [List.get_eq_getElem] at hp
    simp only at hp ⊢
    by_cases hgi : gi < st.groups.length
    · rw [List.getElem_append_left hgi] at hp
      have h1 := edgeMem gi hgi p (by rw [List.get_eq_getElem]; exact hp)
      have hp1 : ¬(p.1 = u ∨ p.1 = v) := by
        rintro (he | he)
        · rw [he, hu] at h1; exact Option.noConfusion h1.1
        · rw [he, hv] at h1; exact Option.noConfusion h1.1
      have hp2 : ¬(p.2 = u ∨ p.2 = v) := by
        rintro (he | he)
        · rw [he, hu] at h1; exact Option.noConfusion h1.2
        · rw [he, hv] at h1; exact Option.noConfusion h1.2
      rw [if_neg hp1, if_neg hp2]
      exact h1
    · have hgie : gi = st.groups.length := by
        rw [List.length_append, List.length_singleton] at h
        omega
      rw [List.getElem_concat_length _ _ _ hgie] at hp
      have hpc : p = (u, v) := Finset.mem_singleton.mp hp
      subst hpc
      constructor
      · simp [hgie]
      · simp [hgie]
  · intro i
    rw [Finset.mem_erase, Finset.mem_erase, lonelyIff i]
    simp only
    constructor
    · rintro ⟨hiv, hiu, hin, hmem⟩
      refine ⟨hin, ?_⟩
      rw [if_neg (by tauto)]
      exact hmem
    · rintro ⟨hin, hmem⟩
      by_cases hi : i = u ∨ i = v
      · rw [if_pos hi] at hmem
        exact absurd hmem (by simp)
      · push_neg at hi
        rw [if_neg (by tauto)] at hmem
        exact ⟨hi.2, hi.1, hin, hmem⟩
  · intro p hp
    have hgen : ∀ j, (st.members j).isSome = true →
        ((fun i => if i = u ∨ i = v then some st.groups.length else st.members i) j).isSome
          = true := by
      intro j hj
      by_cases hji : j = u ∨ j = v <;> simp [hji, hj]
    rcases Finset.mem_insert.mp hp with hpc | hpo
    · subst hpc
      exact ⟨by simp, by simp⟩
    · have h1 := procMem p hpo
      exact ⟨hgen _ h1.1, hgen _ h1.2⟩
  · intro p hp
    rcases Finset.mem_insert.mp hp with hpc | hpo
    · subst hpc; exact ⟨huv, hvn⟩
    · exact procCell p hpo

lemma segInv_join {n : ℕ} {st : SegState α} {u v g : ℕ} (hinv : SegInv n st)
    (huv : u < v) (hun : u < n) (hvn : v < n) (hg : g < st.groups.length)
    (hu : st.members u = none ∨ st.members u = some g)
    (hv : st.members v = none ∨ st.members v = some g) :
    SegInv n (⟨st.groups.set g (insert (u, v) (st.groups.get ⟨g, hg⟩)),
      fun i => if i = u ∨ i = v then some g else st.members i,
      insert (u, v) st.processed,
      (st.lonely.erase u).erase v⟩ : SegState α) := by
  obtain ⟨memLT, memDom, edgeMem, lonelyIff, procMem, procCell⟩ := hinv
  have hsome : ∀ j, st.members j = some g →
      (if j = u ∨ j = v then some g else st.members j) = some g := by
    intro j hj
    by_cases hji : j = u ∨ j = v
    · rw [if_pos hji]
    · rw [if_neg hji]; exact hj
  constructor
  · intro i g2 hg2
    simp only at hg2
    rw [List.length_set]
    by_cases hi : i = u ∨ i = v
    · rw [if_pos hi] at hg2
      have : g = g2 := Option.some.inj hg2
      omega
    · rw [if_neg hi] at hg2
      exact memLT i g2 hg2
  · intro i g2 hg2
    simp only at hg2
    by_cases hi : i = u ∨ i = v
    · rcases hi with hi | hi
      · rw [hi]; exact hun
      · rw [hi]; exact hvn
    · rw [if_neg hi] at hg2
      exact memDom i g2 hg2
  · intro gi h p hp
    rw [List.get_eq_getElem] at hp
    simp only at hp ⊢
    by_cases hgig : gi = g
    · subst hgig
      rw [List.getElem_set_self] at hp
      rcases Finset.mem_insert.mp hp with hpc | hpo
      · subst hpc
        exact ⟨by simp, by simp⟩
      · have h1 := edgeMem gi hg p (by rw [List.get_eq_getElem]; exact hpo)
        exact ⟨hsome _ h1.1, hsome _ h1.2⟩
    · rw [List.getElem_set_ne (fun he => hgig he.symm)] at hp
      have hgil : gi < st.groups.length := by
        rw [List.length_set] at h
        exact h
      have h1 := edgeMem gi hgil p (by rw [List.get_eq_getElem]; exact hp)
      have hp1 : ¬(p.1 = u ∨ p.1 = v) := by
        rintro (he | he)
        · rw [he] at h1
          rcases hu with hx | hx <;> rw [hx] at h1
          · exact Option.noConfusion h1.1
          · exact hgig (Option.some.inj h1.1.symm ▸ rfl)
        · rw [he] at h1
          rcases hv with hx | hx <;> rw [hx] at h1
          · exact Option.noConfusion h1.1
          · exact hgig (Option.some.inj h1.1.symm ▸ rfl)
      have hp2 : ¬(p.2 = u ∨ p.2 = v) := by
        rintro (he | he)
        · rw [he] at h1
          rcases hu with hx | hx <;> rw [hx] at h1
          · exact Option.noConfusion h1.2
          · exact hgig (Option.some.inj h1.2.symm ▸ rfl)
        · rw [he] at h1
          rcases hv with hx | hx <;> rw [hx] at h1
          · exact Option.noConfusion h1.2
          · exact hgig (Option.some.inj h1.2.symm ▸ rfl)
      rw [if_neg hp1, if_neg hp2]
      exact h1
  · intro i
    rw [Finset.mem_erase, Finset.mem_erase, lonelyIff i]
    simp only
    constructor
    · rintro ⟨hiv, hiu, hin, hmem⟩
      refine ⟨hin, ?_⟩
      rw [if_neg (by tauto)]
      exact hmem
    · rintro ⟨hin, hmem⟩
      by_cases hi : i = u ∨ i = v
      · rw [if_pos hi] at hmem
        exact absurd hmem (by simp)
      · push_neg at hi
        rw [if_neg (by tauto)] at hmem
        exact ⟨hi.2, hi.1, hin, hmem⟩
  · intro p hp
    have hgen : ∀ j, (st.members j).isSome = true →
        ((fun i => if i = u ∨ i = v then some g else st.members i) j).isSome = true := by
      intro j hj
      by_cases hji : j = u ∨ j = v <;> simp [hji, hj]
    rcases Finset.mem_insert.mp hp with hpc | hpo
    · subst hpc
      exact ⟨by simp, by simp⟩
    · have h1 := procMem p hpo
      exact ⟨hgen _ h1.1, hgen _ h1.2⟩
  · intro p hp
    rcases Finset.mem_insert.mp hp with hpc | hpo
    · subst hpc; exact ⟨huv, hvn⟩
    · exact procCell p hpo

end AstroMap

namespace AstroMap

/-- Characterization of a successful step: when the selected cell is an edge
cell, the step succeeds, preserves the run invariant, marks exactly the
selected edge processed, and never reassigns an existing membership. -/
lemma segStep_char [LinearOrder α] {n : ℕ} {bright : ℕ → ℕ → α} {st : SegState α}
    {u v : ℕ} (hinv : SegInv n st) (hn : 0 < n)
    (hsel : select n bright st.processed = (u, v)) (huv : u < v) :
    ∃ st', segStep n bright st = .ok st' ∧ SegInv n st' ∧
      st'.processed = insert (u, v) st.processed ∧
      (∀ i g, st.members i = some g → st'.members i = some g) := by
  obtain ⟨memLT, memDom, edgeMem, lonelyIff, procMem, procCell⟩ := hinv
  have hinv2 : SegInv n st := ⟨memLT, memDom, edgeMem, lonelyIff, procMem, procCell⟩
  have hsmem := (select_spec n bright st.processed hn).1
  rw [hsel] at hsmem
  obtain ⟨hun, hvn⟩ := cells_mem.mp hsmem
  have hstep : segStep n bright st = segStepAt st (u, v) := by
    rw [segStep, hsel]
  rcases hmu : st.members u with _ | g1 <;> rcases hmv : st.members v with _ | g2
  · -- both unassigned: new group
    refine ⟨_, by rw [hstep, segStepAt_new huv hmu hmv], ?_, rfl, ?_⟩
    · exact segInv_new hinv2 huv hun hvn hmu hmv
    · intro i g hig
      simp only
      by_cases hi : i = u ∨ i = v
      · rcases hi with hi | hi
        · rw [hi, hmu] at hig; exact Option.noConfusion hig
        · rw [hi, hmv] at hig; exact Option.noConfusion hig
      · rw [if_neg hi]; exact hig
  · -- only v assigned
    have hg2 := memLT v g2 hmv
    refine ⟨_, by rw [hstep, segStepAt_join_v huv (Or.inl hmu) hmv hg2], ?_, rfl, ?_⟩
    · exact segInv_join hinv2 huv hun hvn hg2 (Or.inl hmu) (Or.inr hmv)
    · intro i g hig
      simp only
      by_cases hi : i = u ∨ i = v
      · rcases hi with hi | hi
        · rw [hi, hmu] at hig; exact Option.noConfusion hig
        · rw [if_pos (Or.inr hi)]
          rw [hi, hmv] at hig
          exact hig.symm ▸ rfl
      · rw [if_neg hi]; exact hig
  · -- only u assigned
    have hg1 := memLT u g1 hmu
    refine ⟨_, by rw [hstep, segStepAt_join_u huv hmu hmv hg1], ?_, rfl, ?_⟩
    · exact segInv_join hinv2 huv hun hvn hg1 (Or.inr hmu) (Or.inl hmv)
    · intro i g hig
      simp only
      by_cases hi : i = u ∨ i = v
      · rcases hi with hi | hi
        · rw [if_pos (Or.inl hi)]
          rw [hi, hmu] at hig
          exact hig.symm ▸ rfl
        · rw [hi, hmv] at hig; exact Option.noConfusion hig
      · rw [if_neg hi]; exact hig
  · -- both assigned
    by_cases hgg : g1 = g2
    · subst hgg
      have hg1 := memLT v g1 hmv
      refine ⟨_, by rw [hstep, segStepAt_join_v huv (Or.inr hmu) hmv hg1], ?_, rfl, ?_⟩
      · exact segInv_join hinv2 huv hun hvn hg1 (Or.inr hmu) (Or.inr hmv)
      · intro i g hig
        simp only
        by_cases hi : i = u ∨ i = v
        · rcases hi with hi | hi
          · rw [if_pos (Or.inl hi)]
            rw [hi, hmu] at hig
            exact hig.symm ▸ rfl
          · rw [if_pos (Or.inr hi)]
            rw [hi, hmv] at hig
            exact hig.symm ▸ rfl
        · rw [if_neg hi]; exact hig
    · refine ⟨_, by rw [hstep, segStepAt_sep huv hmu hmv hgg], ?_, rfl, ?_⟩
      · exact segInv_sep hinv2 huv hvn hmu hmv
      · intro i g hig
        exact hig

end AstroMap

namespace AstroMap

lemma mem_uTri {n : ℕ} {c : ℕ × ℕ} : c ∈ uTri n ↔ c.1 < c.2 ∧ c.1 < n ∧ c.2 < n := by
  rcases c with ⟨u, v⟩
  simp [uTri, Finset.mem_filter, Finset.mem_product]
  tauto

/-- While an in-range star is lonely, some live edge cell touching it exists. -/
lemma live_of_lonely {n : ℕ} {st : SegState α} (hinv : SegInv n st) (h2 : 2 ≤ n)
    (hlon : st.lonely ≠ ∅) :
    ∃ c0 : ℕ × ℕ, c0 ∈ cells n ∧ c0.1 < c0.2 ∧ c0 ∉ st.processed := by
  obtain ⟨i, hi⟩ := Finset.nonempty_iff_ne_empty.mpr hlon
  obtain ⟨hin, hmem⟩ := (hinv.lonelyIff i).mp hi
  set j : ℕ := if i = 0 then 1 else 0 with hj
  have hji : j ≠ i := by
    by_cases h0 : i = 0 <;> simp [hj, h0]
    omega
  have hjn : j < n := by
    by_cases h0 : i = 0 <;> simp [hj, h0] <;> omega
  refine ⟨(min i j, max i j), ?_, ?_, ?_⟩
  · refine cells_mem.mpr ⟨?_, ?_⟩
    · exact lt_of_le_of_lt (min_le_left _ _) (by omega : i < n + 0) |>.trans_le (by omega)
    · simp only [max_lt_iff]
      exact ⟨hin, hjn⟩
  · exact min_lt_max.mpr (Ne.symm hji)
  · intro hproc
    have hps := hinv.procMem _ hproc
    have : (st.members i).isSome = true := by
      rcases le_total i j with hle | hle
      · rw [min_eq_left hle] at hps; exact hps.1
      · rw [max_eq_left hle] at hps; exact hps.2
    rw [hmem] at this
    exact Bool.noConfusion this

lemma liveCount_insert {n : ℕ} {st st' : SegState α} {s : ℕ × ℕ}
    (hs1 : s ∈ uTri n) (hs2 : s ∉ st.processed)
    (hp : st'.processed = insert s st.processed) :
    liveCount n st' < liveCount n st := by
  unfold liveCount
  rw [hp]
  have hfe : ((uTri n).filter fun c => c ∉ insert s st.processed)
      = ((uTri n).filter fun c => c ∉ st.processed).erase s := by
    ext c
    simp only [Finset.mem_filter, Finset.mem_erase, Finset.mem_insert]
    tauto
  rw [hfe]
  have hmem : s ∈ (uTri n).filter fun c => c ∉ st.processed :=
    Finset.mem_filter.mpr ⟨hs1, hs2⟩
  rw [Finset.card_erase_of_mem hmem]
  have hpos : 0 < ((uTri n).filter fun c => c ∉ st.processed).card :=
    Finset.card_pos.mpr ⟨s, hmem⟩
  omega

/-- Core progress lemma: with at least two stars, enough fuel, and the run
invariant, the loop terminates successfully with the invariant intact. -/
lemma segRun_total [LinearOrder α] {n : ℕ} (bright : ℕ → ℕ → α) (h2 : 2 ≤ n) :
    ∀ (fuel : ℕ) (st : SegState α), SegInv n st → liveCount n st ≤ fuel →
      ∃ st', segRun n bright fuel st = .ok st' ∧ SegInv n st' := by
  intro fuel
  induction fuel with
  | zero =>
    intro st hinv hlc
    by_cases hlon : st.lonely = ∅
    · exact ⟨st, by simp only [segRun, if_pos hlon], hinv⟩
    · obtain ⟨c0, hc0m, hc0uv, hc0p⟩ := live_of_lonely hinv h2 hlon
      have : c0 ∈ (uTri n).filter fun c => c ∉ st.processed := by
        obtain ⟨h1, h2x⟩ := cells_mem.mp hc0m
        exact Finset.mem_filter.mpr ⟨mem_uTri.mpr ⟨hc0uv, h1, h2x⟩, hc0p⟩
      have hpos : 0 < liveCount n st := Finset.card_pos.mpr ⟨c0, this⟩
      omega
  | succ f ih =>
    intro st hinv hlc
    by_cases hlon : st.lonely = ∅
    · exact ⟨st, by simp only [segRun, if_pos hlon], hinv⟩
    · obtain ⟨c0, hc0m, hc0uv, hc0p⟩ := live_of_lonely hinv h2 hlon
      obtain ⟨hsuv, hsp, hsm⟩ :=
        @select_live α _ n bright st.processed c0 hc0m hc0uv hc0p
      rcases hsel : select n bright st.processed with ⟨u, v⟩
      rw [hsel] at hsuv hsp hsm
      have hn : 0 < n := by omega
      obtain ⟨st1, hok, hinv1, hproc1, -⟩ := segStep_char hinv hn hsel hsuv
      have hlt : liveCount n st1 < liveCount n st := by
        apply liveCount_insert _ hsp hproc1
        obtain ⟨h1x, h2x⟩ := cells_mem.mp hsm
        exact mem_uTri.mpr ⟨hsuv, h1x, h2x⟩
      obtain ⟨st', hrun, hinv'⟩ := ih st1 hinv1 (by omega)
      refine ⟨st', ?_, hinv'⟩
      simp only [segRun, if_neg hlon, hok]
      exact hrun

end AstroMap

namespace AstroMap

lemma segRun_ok_lonely [LinearOrder α] {n : ℕ} {bright : ℕ → ℕ → α} :
    ∀ {fuel : ℕ} {st st' : SegState α},
      segRun n bright fuel st = .ok st' → st'.lonely = ∅ := by
  intro fuel
  induction fuel with
  | zero =>
    intro st st' h
    simp only [segRun] at h
    by_cases hlon : st.lonely = ∅
    · rw [if_pos hlon] at h
      injection h with h1
      rw [← h1]
      exact hlon
    · rw [if_neg hlon] at h
      exact absurd h (by simp)
  | succ f ih =>
    intro st st' h
    simp only [segRun] at h
    by_cases hlon : st.lonely = ∅
    · rw [if_pos hlon] at h
      injection h with h1
      rw [← h1]
      exact hlon
    · rw [if_neg hlon] at h
      cases hstep : segStep n bright st with
      | error e => rw [hstep] at h; exact absurd h (by simp)
      | ok st1 =>
        rw [hstep] at h
        exact ih h

lemma segRun_mono [LinearOrder α] {n : ℕ} {bright : ℕ → ℕ → α} :
    ∀ {fuel fuel' : ℕ} {st st' : SegState α}, segRun n bright fuel st = .ok st' →
      fuel ≤ fuel' → segRun n bright fuel' st = .ok st' := by
  intro fuel
  induction fuel with
  | zero =>
    intro fuel' st st' h hle
    simp only [segRun] at h
    by_cases hlon : st.lonely = ∅
    · rw [if_pos hlon] at h
      injection h with h1
      subst h1
      cases fuel' <;> simp only [segRun, if_pos hlon]
    · rw [if_neg hlon] at h
      exact absurd h (by simp)
  | succ f ih =>
    intro fuel' st st' h hle
    simp only [segRun] at h
    by_cases hlon : st.lonely = ∅
    · rw [if_pos hlon] at h
      injection h with h1
      subst h1
      cases fuel' <;> simp only [segRun, if_pos hlon]
    · rw [if_neg hlon] at h
      obtain ⟨f2, rfl⟩ : ∃ f2, fuel' = f2 + 1 := ⟨fuel' - 1, by omega⟩
      cases hstep : segStep n bright st with
      | error e => rw [hstep] at h; exact absurd h (by simp)
      | ok st1 =>
        rw [hstep] at h
        have hr := ih h (by omega : f ≤ f2)
        simp only [segRun, if_neg hlon, hstep]
        exact hr

lemma uTri_succ (n : ℕ) :
    uTri (n + 1) = uTri n ∪ (Finset.range n).image (fun u => (u, n)) := by
  ext ⟨a, b⟩
  simp only [mem_uTri, Finset.mem_union, Finset.mem_image, Finset.mem_range]
  constructor
  · rintro ⟨hab, ha, hb⟩
    by_cases hbn : b = n
    · right
      exact ⟨a, by omega, by rw [hbn]⟩
    · left
      exact ⟨hab, by omega, by omega⟩
  · rintro (⟨hab, ha, hb⟩ | ⟨x, hx, hxe⟩)
    · exact ⟨hab, by omega, by omega⟩
    · injection hxe with h1 h2
      subst h1
      subst h2
      exact ⟨hx, by omega, by omega⟩

lemma two_mul_card_uTri (n : ℕ) : 2 * (uTri n).card = n * (n - 1) := by
  induction n with
  | zero => rfl
  | succ m ih =>
    rw [uTri_succ, Finset.card_union_of_disjoint, Finset.card_image_of_injective _
      (fun x y hxy => (Prod.ext_iff.mp hxy).1), Finset.card_range]
    · rcases m with _ | k
      · decide
      · rw [Nat.mul_comm 2 _, Nat.add_mul, ← Nat.mul_comm 2 _, ih]
        simp only [Nat.add_sub_cancel]
        ring
    · rw [Finset.disjoint_left]
      rintro ⟨a, b⟩ hab hin
      obtain ⟨x, hx, hxe⟩ := Finset.mem_image.mp hin
      injection hxe with h1 h2
      have hblt := (mem_uTri.mp hab).2.2
      omega

lemma card_uTri (n : ℕ) : (uTri n).card = n * (n - 1) / 2 := by
  have h := two_mul_card_uTri n
  omega

lemma liveCount_init (n : ℕ) : liveCount n (segInit α n) = (uTri n).card := by
  unfold liveCount segInit
  simp

lemma segRun_one_crash [LinearOrder α] (bright : ℕ → ℕ → α) (f : ℕ) :
    segRun 1 bright (f + 1) (segInit α 1) = .error .attrError := by
  have h00 : (0 : ℕ) ∈ (segInit α 1).lonely := by simp [segInit]
  have hlon : (segInit α 1).lonely ≠ ∅ := by
    intro he
    rw [he] at h00
    exact Finset.not_mem_empty _ h00
  have hsel : select 1 bright (segInit α 1).processed = (0, 0) := rfl
  have hstep : segStep 1 bright (segInit α 1) = .error .attrError := by
    rw [segStep, hsel]
    exact segStepAt_attr _ _ (by omega)
  simp only [segRun, if_neg hlon, hstep]

lemma segIter_ok_char [LinearOrder α] {n : ℕ} {bright : ℕ → ℕ → α} :
    ∀ {k : ℕ} {st st' : SegState α}, SegInv n st → segIter n bright k st = .ok st' →
      SegInv n st' ∧ (∀ i g, st.members i = some g → st'.members i = some g) := by
  intro k
  induction k with
  | zero =>
    intro st st' hinv h
    simp only [segIter] at h
    injection h with h1
    subst h1
    exact ⟨hinv, fun i g hg => hg⟩
  | succ kk ih =>
    intro st st' hinv h
    simp only [segIter] at h
    by_cases hlon : st.lonely = ∅
    · rw [if_pos hlon] at h
      injection h with h1
      subst h1
      exact ⟨hinv, fun i g hg => hg⟩
    · rw [if_neg hlon] at h
      have hn : 0 < n := by
        obtain ⟨i, hi⟩ := Finset.nonempty_iff_ne_empty.mpr hlon
        have := (hinv.lonelyIff i).mp hi
        omega
      rcases hselp : select n bright st.processed with ⟨u, v⟩
      by_cases huv : u < v
      · obtain ⟨st1, hok, hinv1, -, hmono⟩ := segStep_char hinv hn hselp huv
        rw [hok] at h
        obtain ⟨hinv', hmono'⟩ := ih hinv1 h
        exact ⟨hinv', fun i g hg => hmono' i g (hmono i g hg)⟩
      · have herr : segStep n bright st = .error .attrError := by
          rw [segStep, hselp]
          exact segStepAt_attr _ _ huv
        rw [herr] at h
        exact absurd h (by simp)

lemma segInv_disjoint {n : ℕ} {st : SegState α} (hinv : SegInv n st) {g1 g2 : ℕ}
    (h1 : g1 < st.groups.length) (h2 : g2 < st.groups.length) (hne : g1 ≠ g2) :
    Disjoint (starsOf (st.groups.get ⟨g1, h1⟩)) (starsOf (st.groups.get ⟨g2, h2⟩)) := by
  rw [Finset.disjoint_left]
  intro a ha hb
  unfold starsOf at ha hb
  have hma : st.members a = some g1 := by
    rcases Finset.mem_union.mp ha with h | h <;> obtain ⟨p, hp, he⟩ := Finset.mem_image.mp h
    · exact he ▸ (hinv.edgeMem g1 h1 p hp).1
    · exact he ▸ (hinv.edgeMem g1 h1 p hp).2
  have hmb : st.members a = some g2 := by
    rcases Finset.mem_union.mp hb with h | h <;> obtain ⟨p, hp, he⟩ := Finset.mem_image.mp h
    · exact he ▸ (hinv.edgeMem g2 h2 p hp).1
    · exact he ▸ (hinv.edgeMem g2 h2 p hp).2
  rw [hma] at hmb
  exact hne (Option.some.inj hmb)

end AstroMap

namespace AstroMap

lemma perm_pair_eq {l : List ℕ} {a : ℕ} (h : l.Perm [a, a]) : l = [a, a] := by
  have hlen := h.length_eq
  simp only [List.length_cons, List.length_nil] at hlen
  rcases l with _ | ⟨x, _ | ⟨y, _ | ⟨z, t⟩⟩⟩
  · simp at hlen
  · simp at hlen
  · have hx : x = a := by
      have hs := h.subset (List.mem_cons_self x _)
      simp at hs
      exact hs
    have hy : y = a := by
      have hs := h.subset (List.mem_cons_of_mem x (List.mem_cons_self y _))
      simp at hs
      exact hs
    rw [hx, hy]
  · simp at hlen

lemma segRun_done [LinearOrder α] {n : ℕ} {bright : ℕ → ℕ → α} {st : SegState α}
    (h : st.lonely = ∅) (fuel : ℕ) : segRun n bright fuel st = .ok st := by
  cases fuel <;> simp only [segRun, if_pos h]

lemma card_uTri_le (n : ℕ) : (uTri n).card ≤ n * n := by
  refine le_trans (Finset.card_filter_le _ _) ?_
  rw [Finset.card_product, Finset.card_range]

/-- Claim C1: along any run of `segment`, star sets of distinct groups are
disjoint at every step; an edge whose endpoints lie in different groups is
rejected (no group gains it, membership and lonely stars unchanged); a star
entered in the membership index is never reassigned to a different group. -/
theorem no_merge_invariant [LinearOrder α] (n : ℕ) (bright : ℕ → ℕ → α)
    (k : ℕ) (st' : SegState α)
    (hreach : segIter n bright k (segInit α n) = .ok st') :
    (∀ g1 g2 (h1 : g1 < st'.groups.length) (h2 : g2 < st'.groups.length),
      g1 ≠ g2 →
        Disjoint (starsOf (st'.groups.get ⟨g1, h1⟩))
          (starsOf (st'.groups.get ⟨g2, h2⟩))) ∧
    (∀ u v ga gb, select n bright st'.processed = (u, v) → u < v →
      st'.members u = some ga → st'.members v = some gb → ga ≠ gb →
      segStep n bright st' =
        .ok ⟨st'.groups, st'.members, insert (u, v) st'.processed, st'.lonely⟩) ∧
    (∀ k2 st2, segIter n bright k2 st' = .ok st2 →
      ∀ i g, st'.members i = some g → st2.members i = some g) := by
  obtain ⟨hinv, -⟩ := segIter_ok_char (segInv_init n) hreach
  refine ⟨?_, ?_, ?_⟩
  · intro g1 g2 h1 h2 hne
    exact segInv_disjoint hinv h1 h2 hne
  · intro u v ga gb hsel huv hu hv hne
    rw [segStep, hsel]
    exact segStepAt_sep huv hu hv hne
  · intro k2 st2 h2 i g hg
    exact (segIter_ok_char hinv h2).2 i g hg

/-- Witness for C1 on the four-star bridge scenario: after two accepted
edges (0,1) and (2,3) the bridging edge (1,2) is selected and rejected. -/
theorem no_merge_invariant_witness :
    ∃ st', segIter 4 brW 2 (segInit ℕ 4) = .ok st' ∧
      select 4 brW st'.processed = (1, 2) ∧
      st'.members 1 = some 0 ∧ st'.members 2 = some 1 ∧
      segStep 4 brW st' =
        .ok ⟨st'.groups, st'.members, insert (1, 2) st'.processed, st'.lonely⟩ := by
  refine ⟨_, rfl, rfl, rfl, rfl, ?_⟩
  refine (no_merge_invariant 4 brW 2 _ ?_).2.1 1 2 0 1 rfl (by norm_num) rfl rfl
    (by norm_num)
  rfl

end AstroMap

namespace AstroMap

/-- Claim C2: decision policy for the selected globally-minimal edge (u, v):
(a) both endpoints unassigned → a fresh group holding exactly this edge is
appended and both endpoints are assigned to it; (b) exactly one endpoint
assigned to group g → the edge is inserted into g and the other endpoint is
assigned to g as well; (c) both endpoints in the same group g → the edge is
inserted into g and the membership of every star is left unchanged. -/
theorem step_decision_policy [LinearOrder α] (n : ℕ) (bright : ℕ → ℕ → α)
    (st : SegState α) (u v : ℕ)
    (hsel : select n bright st.processed = (u, v)) (huv : u < v) :
    (st.members u = none → st.members v = none →
      segStep n bright st = .ok
        ⟨st.groups ++ [{(u, v)}],
          fun i => if i = u ∨ i = v then some st.groups.length else st.members i,
          insert (u, v) st.processed,
          (st.lonely.erase u).erase v⟩) ∧
    (∀ g (hg : g < st.groups.length),
      (st.members u = some g ∧ st.members v = none) ∨
        (st.members u = none ∧ st.members v = some g) →
      segStep n bright st = .ok
        ⟨st.groups.set g (insert (u, v) (st.groups.get ⟨g, hg⟩)),
          fun i => if i = u ∨ i = v then some g else st.members i,
          insert (u, v) st.processed,
          (st.lonely.erase u).erase v⟩) ∧
    (∀ g (hg : g < st.groups.length),
      st.members u = some g → st.members v = some g →
      segStep n bright st = .ok
        ⟨st.groups.set g (insert (u, v) (st.groups.get ⟨g, hg⟩)),
          fun i => if i = u ∨ i = v then some g else st.members i,
          insert (u, v) st.processed,
          (st.lonely.erase u).erase v⟩ ∧
      ∀ i, (if i = u ∨ i = v then some g else st.members i) = st.members i) := by
  refine ⟨?_, ?_, ?_⟩
  · intro hu hv
    rw [segStep, hsel]
    exact segStepAt_new huv hu hv
  · rintro g hg (⟨hu, hv⟩ | ⟨hu, hv⟩)
    · rw [segStep, hsel]
      exact segStepAt_join_u huv hu hv hg
    · rw [segStep, hsel]
      exact segStepAt_join_v huv (Or.inl hu) hv hg
  · intro g hg hu hv
    constructor
    · rw [segStep, hsel]
      exact segStepAt_join_v huv (Or.inr hu) hv hg
    · intro i
      by_cases hi : i = u ∨ i = v
      · rw [if_pos hi]
        rcases hi with hi | hi
        · rw [hi, hu]
        · rw [hi, hv]
      · rw [if_neg hi]

/-- Witness for C2, case (a) on two fresh stars: the first decision creates
group 0 holding edge (0, 1) and assigns both endpoints to it. -/
theorem step_decision_policy_witness :
    segStep 2 (fun _ _ => (0 : ℕ)) (segInit ℕ 2) = .ok
      ⟨(segInit ℕ 2).groups ++ [{(0, 1)}],
        fun i => if i = 0 ∨ i = 1 then some (segInit ℕ 2).groups.length
          else (segInit ℕ 2).members i,
        insert (0, 1) (segInit ℕ 2).processed,
        (((segInit ℕ 2).lonely.erase 0).erase 1)⟩ :=
  (step_decision_policy 2 (fun _ _ => (0 : ℕ)) (segInit ℕ 2) 0 1 rfl
    (by norm_num)).1 rfl rfl

/-- Claim C6 counterexample: with exactly one qualifying star the loop does
not terminate cleanly: the first iteration selects the lone `None` cell
(0, 0) and raises `AttributeError` (fuel 3 is ample: ≥ 1 iteration). -/
theorem one_star_loop_errors :
    segRun 1 (fun _ _ => (0 : ℕ)) 3 (segInit ℕ 1) = .error .attrError :=
  segRun_one_crash _ 2

/-- Claim C6 amended: for every score matrix and every star count `n ≠ 1`,
the loop terminates normally within `n * (n − 1) / 2` iterations (one
decision per edge cell), in particular it neither spins nor errors; the
`n = 1` case instead raises, see the counterexample. -/
theorem loop_bounded_termination [LinearOrder α] (n : ℕ) (bright : ℕ → ℕ → α)
    (hn : n ≠ 1) :
    ∃ st', segRun n bright (n * (n - 1) / 2) (segInit α n) = .ok st' := by
  rcases Nat.lt_or_ge n 2 with h2 | h2
  · have hn0 : n = 0 := by omega
    subst hn0
    refine ⟨segInit α 0, segRun_done rfl _⟩
  · obtain ⟨st', h, -⟩ := segRun_total bright h2 (n * (n - 1) / 2)
      (segInit α n) (segInv_init n) (by rw [liveCount_init, card_uTri])
    exact ⟨st', h⟩

/-- Witness for C6 on three stars with tied scores: fuel 3 = 3·2/2 works. -/
theorem loop_bounded_termination_witness :
    ∃ st', segRun 3 (fun _ _ => (0 : ℕ)) (3 * (3 - 1) / 2) (segInit ℕ 3) = .ok st' :=
  loop_bounded_termination 3 _ (by norm_num)

/-- Claim C8: (i) determinism — the run result depends only on the input:
any two sufficient fuel budgets produce identical results (same groups, same
membership), even when scores tie; (ii) the tie-break is deterministic: the
selected cell is minimal in the argmin order and sits before every other
minimal cell in row-major order, i.e. the lexicographically least `(u, v)`
among the tied minima is chosen. -/
theorem segmentation_deterministic [LinearOrder α] (n : ℕ) (bright : ℕ → ℕ → α)
    (f1 f2 : ℕ) (h1 : n * n ≤ f1) (h2 : n * n ≤ f2) :
    segRun n bright f1 (segInit α n) = segRun n bright f2 (segInit α n) ∧
    ∀ processed : Finset (ℕ × ℕ), 0 < n →
      (∀ c ∈ cells n, entryLT (cellVal bright processed c)
        (cellVal bright processed (select n bright processed)) = false) ∧
      ∃ l1 l2, cells n = l1 ++ select n bright processed :: l2 ∧
        ∀ x ∈ l1, entryLT (cellVal bright processed (select n bright processed))
          (cellVal bright processed x) = true := by
  constructor
  · rcases Nat.lt_or_ge n 2 with hlt | hge
    · interval_cases n
      · rw [segRun_done rfl, segRun_done rfl]
      · obtain ⟨k1, rfl⟩ : ∃ k1, f1 = k1 + 1 := ⟨f1 - 1, by omega⟩
        obtain ⟨k2, rfl⟩ : ∃ k2, f2 = k2 + 1 := ⟨f2 - 1, by omega⟩
        rw [segRun_one_crash, segRun_one_crash]
    · obtain ⟨st', hok, -⟩ := segRun_total bright hge (n * n)
        (segInit α n) (segInv_init n)
        (le_trans (le_of_eq (liveCount_init n)) (card_uTri_le n))
      rw [segRun_mono hok h1, segRun_mono hok h2]
  · intro processed hn
    obtain ⟨-, hmin, hpos⟩ := select_spec n bright processed hn
    exact ⟨hmin, hpos⟩

/-- Witness for C8 with all scores tied (three stars, constant matrix). -/
theorem segmentation_deterministic_witness :
    segRun 3 (fun _ _ => (0 : ℕ)) 9 (segInit ℕ 3) =
      segRun 3 (fun _ _ => (0 : ℕ)) 10 (segInit ℕ 3) ∧
    ∃ l1 l2, cells 3 = l1 ++ select 3 (fun _ _ => (0 : ℕ)) ∅ :: l2 ∧
      ∀ x ∈ l1, entryLT (cellVal (fun _ _ => (0 : ℕ)) ∅
        (select 3 (fun _ _ => (0 : ℕ)) ∅)) (cellVal (fun _ _ => (0 : ℕ)) ∅ x) = true := by
  have h := segmentation_deterministic 3 (fun _ _ => (0 : ℕ)) 9 10
    (by norm_num) (by norm_num)
  exact ⟨h.1, (h.2 ∅ (by norm_num)).2⟩

end AstroMap

namespace AstroMap

/-- Claim C3: for every pair of filtered stars `u ≠ v`, the computed edge
brightness is `((mag_u + 1.5) + (mag_v + 1.5)) ^ 2.0 + D[u][v] ^ 2.0 · 16.0`
(the spec formula with the default offset 1.5, powers 2.0 and distance
coefficient 16.0); the defaults hardcoded in `__init__` are exactly these. -/
theorem edge_brightness_formula (stars : List SStar) (u v : ℕ)
    (hu : u < stars.length) (hv : v < stars.length) (huv : u ≠ v) :
    edgeBright stars u v =
      specBrightness (stars.getD u default) (stars.getD v default) ∧
    magnitudePower = 2 ∧ distancePower = 2 ∧ distanceCoefficient = 16 :=
  ⟨brights_eq_spec _ _, rfl, rfl, rfl⟩

/-- Witness for C3 on a concrete two-star list. -/
theorem edge_brightness_formula_witness :
    (0 : ℕ) < ([⟨1, 0, 0, 0⟩, ⟨2, 1, 0, 1⟩] : List SStar).length ∧
    (1 : ℕ) < ([⟨1, 0, 0, 0⟩, ⟨2, 1, 0, 1⟩] : List SStar).length ∧
    (0 : ℕ) ≠ 1 ∧
    edgeBright [⟨1, 0, 0, 0⟩, ⟨2, 1, 0, 1⟩] 0 1 =
      specBrightness (([⟨1, 0, 0, 0⟩, ⟨2, 1, 0, 1⟩] : List SStar).getD 0 default)
        (([⟨1, 0, 0, 0⟩, ⟨2, 1, 0, 1⟩] : List SStar).getD 1 default) :=
  ⟨by norm_num, by norm_num, by norm_num,
    (edge_brightness_formula [⟨1, 0, 0, 0⟩, ⟨2, 1, 0, 1⟩] 0 1 (by norm_num)
      (by norm_num) (by norm_num)).1⟩

/-- Claim C4 counterexample: the transformation the code applies before
`arccos` takes the minimum with 1 alone; it is not the claimed two-sided clamp to
[−1, 1] — at input −2 the code value stays −2, strictly below −1, while the
spec clamp gives −1. -/
theorem clamp_lower_counterexample :
    upperClamp (-2) = -2 ∧ specClamp (-2) = -1 ∧
      upperClamp (-2) ≠ specClamp (-2) := by
  have h1 : upperClamp (-2) = -2 := by
    unfold upperClamp
    rw [min_eq_right (by norm_num : (-2 : ℝ) ≤ 1)]
  have h2 : specClamp (-2) = -1 := by
    unfold specClamp
    rw [min_eq_right (by norm_num : (-2 : ℝ) ≤ 1),
      max_eq_left (by norm_num : (-2 : ℝ) ≤ -1)]
  refine ⟨h1, h2, ?_⟩
  rw [h1, h2]
  norm_num

/-- Claim C4 amended: only the upper bound is clamped (`np.minimum(1.0, ·)`);
nevertheless, over the reals the spherical law-of-cosines expression is
bounded below by −1, so the argument reaching `arccos` always lies in
[−1, 1] and no domain violation occurs in exact arithmetic. -/
theorem arccos_arg_in_Icc (a b : SStar) :
    upperClamp (dotArg a b) ∈ Set.Icc (-1 : ℝ) 1 ∧
    distances a b = Real.arccos (upperClamp (dotArg a b)) := by
  refine ⟨?_, rfl⟩
  rw [Set.mem_Icc]
  constructor
  · exact le_min (by norm_num) (neg_one_le_dotArg a b)
  · exact min_le_left _ _

/-- Claim C7: the pairwise angular distance is symmetric with zero diagonal,
and the pairwise brightness score is symmetric. -/
theorem distance_brightness_symmetry (stars : ℕ → SStar) (u v : ℕ) :
    distances (stars u) (stars v) = distances (stars v) (stars u) ∧
    distances (stars u) (stars u) = 0 ∧
    brights (stars u) (stars v) = brights (stars v) (stars u) := by
  have hd : ∀ a b : SStar, distances a b = distances b a := by
    intro a b
    unfold distances upperClamp
    rw [dotArg_comm]
  refine ⟨hd _ _, ?_, ?_⟩
  · unfold distances upperClamp
    rw [dotArg_self, min_self, Real.arccos_one]
  · have hm : pairMagnitude (stars u) (stars v) = pairMagnitude (stars v) (stars u) := by
      unfold pairMagnitude
      ring
    unfold brights
    rw [hm, hd]

/-- Claim C5: when exactly one star passes the magnitude filter, `segment`
raises instead of returning zero groups: the single-cell edge array holds
only `None`, `argmin` selects `(0, 0)`, and `edge.now_bright = None` is an
attribute write on `None`. -/
theorem single_star_crashes (catalog : List SStar) (maxMag : ℝ)
    (h1 : (catalog.filter fun s => decide (s.magnitude ≤ maxMag)).length = 1) :
    segment catalog maxMag = .error .attrError := by
  unfold segment
  have hlen : (filteredSorted catalog maxMag).length = 1 := by
    unfold filteredSorted
    rw [List.length_mergeSort]
    exact h1
  rw [hlen]
  exact segRun_one_crash _ 0

/-- Witness for C5: a one-star catalog under the default ceiling. -/
theorem single_star_crashes_witness :
    (([⟨3, 1, 0, 0⟩] : List SStar).filter fun s => decide (s.magnitude ≤ 2)).length = 1 ∧
    segment [⟨3, 1, 0, 0⟩] 2 = .error .attrError := by
  have hf : ([⟨3, 1, 0, 0⟩] : List SStar).filter (fun s => decide (s.magnitude ≤ 2)) =
      [⟨3, 1, 0, 0⟩] := by
    rw [List.filter_cons_of_pos (by norm_num), List.filter_nil]
  constructor
  · rw [hf]
    rfl
  · exact single_star_crashes _ _ (by rw [hf]; rfl)

/-- Claim C9: no fail-fast validation exists.  A star list with a duplicate
identifier (7 twice) sails through `_gen_edges` matrix construction with no
error: both duplicate rows survive into the returned `numbers` list. -/
theorem duplicate_numbers_accepted :
    genNumbers [⟨7, 0, 0, 0⟩, ⟨7, 1, 2, 3⟩] 2 = [7, 7] := by
  apply perm_pair_eq
  unfold genNumbers filteredSorted
  have hperm := List.mergeSort_perm
    (([⟨7, 0, 0, 0⟩, ⟨7, 1, 2, 3⟩] : List SStar).filter fun s => decide (s.magnitude ≤ 2))
    (fun a b => decide (a.magnitude ≤ b.magnitude))
  have hmap := hperm.map (fun s : SStar => s.number)
  refine hmap.trans ?_
  have hfil : ([⟨7, 0, 0, 0⟩, ⟨7, 1, 2, 3⟩] : List SStar).filter
      (fun s => decide (s.magnitude ≤ 2)) = [⟨7, 0, 0, 0⟩, ⟨7, 1, 2, 3⟩] := by
    rw [List.filter_cons_of_pos (by norm_num), List.filter_cons_of_pos (by norm_num),
      List.filter_nil]
  rw [hfil]
  exact List.Perm.refl _

/-- Claim C10: when at least two stars pass the filter, `segment` returns
normally and every filtered star position 0..N−1 is assigned to a group. -/
theorem all_stars_assigned (catalog : List SStar) (maxMag : ℝ)
    (h2 : 2 ≤ (catalog.filter fun s => decide (s.magnitude ≤ maxMag)).length) :
    ∃ st', segment catalog maxMag = .ok st' ∧
      ∀ i, i < (filteredSorted catalog maxMag).length →
        (st'.members i).isSome = true := by
  have hlen : (filteredSorted catalog maxMag).length =
      (catalog.filter fun s => decide (s.magnitude ≤ maxMag)).length := by
    unfold filteredSorted
    rw [List.length_mergeSort]
  have h2n : 2 ≤ (filteredSorted catalog maxMag).length := by omega
  obtain ⟨st', hrun, hinv⟩ := segRun_total
    (edgeBright (filteredSorted catalog maxMag)) h2n
    ((filteredSorted catalog maxMag).length * (filteredSorted catalog maxMag).length)
    (segInit ℝ (filteredSorted catalog maxMag).length)
    (segInv_init _)
    (le_trans (le_of_eq (liveCount_init _)) (card_uTri_le _))
  refine ⟨st', hrun, ?_⟩
  intro i hi
  have hlone := segRun_ok_lonely hrun
  rcases hm : st'.members i with _ | g
  · have := (hinv.lonelyIff i).mpr ⟨hi, hm⟩
    rw [hlone] at this
    exact absurd this (Finset.not_mem_empty i)
  · rfl

/-- Witness for C10 on a concrete two-star catalog. -/
theorem all_stars_assigned_witness :
    2 ≤ (([⟨1, 0, 0, 0⟩, ⟨2, 1, 0, 1⟩] : List SStar).filter
      fun s => decide (s.magnitude ≤ 2)).length ∧
    ∃ st', segment [⟨1, 0, 0, 0⟩, ⟨2, 1, 0, 1⟩] 2 = .ok st' ∧
      ∀ i, i < (filteredSorted [⟨1, 0, 0, 0⟩, ⟨2, 1, 0, 1⟩] 2).length →
        (st'.members i).isSome = true := by
  have hf : ([⟨1, 0, 0, 0⟩, ⟨2, 1, 0, 1⟩] : List SStar).filter
      (fun s => decide (s.magnitude ≤ 2)) = [⟨1, 0, 0, 0⟩, ⟨2, 1, 0, 1⟩] := by
    rw [List.filter_cons_of_pos (by norm_num), List.filter_cons_of_pos (by norm_num),
      List.filter_nil]
  constructor
  · rw [hf]
    norm_num
  · exact all_stars_assigned _ _ (by rw [hf]; norm_num)

end AstroMap
